import Mathlib

/-!
Verification of the FileSystemGraph program (graph.cpp).

The C++ program stores a directed graph in
  std::map<fs::path, std::vector<fs::path>> adjList
and provides addVertex, addEdge, a filesystem-driven buildGraph, a
unit-weight Dijkstra shortestPath, and a Prim-style minSpanTree.

Shallow embedding choices, each justified against the source:
  - fs::path is modelled by String; fs::path orders and compares its
    components, String order plays the same role for the map or set
    ordering that the algorithms observe.
  - std::map is modelled by an association list; lookup and update act
    on the first matching key, and insertion of a new key appends.
    The places where the C++ code observes the sorted iteration order
    of a map or set (the std::set of unvisited vertices, the minimal
    key begin() of the map) are modelled by explicit sorting or by an
    explicit minimum over the keys.
  - int is modelled by Int; INT_MAX is the literal 2147483647.
  - map operator[] read access yields the default value for an absent
    key: 0 for int, the empty path for fs::path, [] for vectors.
-/

/-- Paths of the C++ program (fs::path), modelled as strings. -/
abbrev FPath := String

/-- Lexicographic comparison of character lists by code point; the order
std::map and std::set impose on the path keys in this model. -/
def listLt : List Char → List Char → Bool
  | [], [] => false
  | [], _ :: _ => true
  | _ :: _, [] => false
  | a :: as, b :: bs =>
      if a.toNat < b.toNat then true
      else if b.toNat < a.toNat then false
      else listLt as bs

/-- The strict order on paths used by the ordered containers. -/
def pathLt (a b : FPath) : Bool :=
  listLt a.data b.data

/-- The adjacency list: std::map<fs::path, std::vector<fs::path>>. -/
abbrev Graph := List (FPath × List FPath)

/-- Lookup of a key in the map, first match (std::map has unique keys;
every map built by the operations below keeps keys unique). -/
def lookupList (g : Graph) (p : FPath) : Option (List FPath) :=
  match g with
  | [] => none
  | (k, v) :: rest => if k = p then some v else lookupList rest p

/-- adjList.count(path) != 0. -/
def hasVertex (g : Graph) (p : FPath) : Bool :=
  (lookupList g p).isSome

/-- The neighbor list of a vertex as the algorithms read it with
adjList[v]: the stored vector, or the empty vector for an absent key. -/
def neighbors (g : Graph) (p : FPath) : List FPath :=
  (lookupList g p).getD []

/-- adjList.size(): the number of distinct keys. -/
def numVertices (g : Graph) : Nat :=
  (g.map Prod.fst).toFinset.card

/-- addVertex: if the path is not already in the adjacency list, add it
with an empty vector. -/
def addVertex (g : Graph) (p : FPath) : Graph :=
  if (lookupList g p).isSome then g else g ++ [(p, [])]

/-- adjList[source].push_back(destination) for a source that is present:
append destination to the vector of the first entry whose key is source. -/
def appendNeighbor (g : Graph) (src dst : FPath) : Graph :=
  match g with
  | [] => []
  | (k, v) :: rest =>
      if k = src then (k, v ++ [dst]) :: rest
      else (k, v) :: appendNeighbor rest src dst

/-- addEdge: ensure both endpoints are vertices, then push_back the
destination onto the source vector. -/
def addEdge (g : Graph) (src dst : FPath) : Graph :=
  appendNeighbor (addVertex (addVertex g src) dst) src dst

/-! ## Shortest path (unit-weight Dijkstra), from shortestPath in graph.cpp -/

/-- std::numeric_limits<int>::max(). -/
def INT_MAX : Int := 2147483647

/-- std::map<fs::path, int> distances. -/
abbrev DistMap := List (FPath × Int)

/-- std::map<fs::path, fs::path> previous. -/
abbrev PrevMap := List (FPath × FPath)

/-- distances[p] read access: stored value, or 0 (value-initialized int)
for an absent key, as map operator[] yields. -/
def dfind (d : DistMap) (p : FPath) : Int :=
  match d with
  | [] => 0
  | (k, v) :: rest => if k = p then v else dfind rest p

/-- distances[p] = v: assign through operator[], replacing the first
matching entry or inserting the key. -/
def dupdate (d : DistMap) (p : FPath) (v : Int) : DistMap :=
  match d with
  | [] => [(p, v)]
  | (k, w) :: rest =>
      if k = p then (k, v) :: rest else (k, w) :: dupdate rest p v

/-- previous[p] read access: stored value, or the empty path
(value-initialized fs::path) for an absent key. -/
def pfind (m : PrevMap) (p : FPath) : FPath :=
  match m with
  | [] => ""
  | (k, v) :: rest => if k = p then v else pfind rest p

/-- previous[p] = v through operator[]. -/
def pupdate (m : PrevMap) (p v : FPath) : PrevMap :=
  match m with
  | [] => [(p, v)]
  | (k, w) :: rest =>
      if k = p then (k, v) :: rest else (k, w) :: pupdate rest p v

/-- std::set insertion: keep the list strictly sorted, ignore a element
already present. -/
def setInsert (p : FPath) (l : List FPath) : List FPath :=
  match l with
  | [] => [p]
  | q :: qs =>
      if pathLt p q then p :: q :: qs
      else if p = q then q :: qs
      else q :: setInsert p qs

/-- The initialization loop of shortestPath: distances[k] = INT_MAX for
every key of adjList. -/
def distInit (g : Graph) : DistMap :=
  g.map (fun kv => (kv.1, INT_MAX))

/-- The initialization loop of shortestPath: previous[k] = "" for every
key of adjList. -/
def prevInit (g : Graph) : PrevMap :=
  g.map (fun kv => (kv.1, ""))

/-- The initialization loop of shortestPath: unvisited.insert(k) for
every key of adjList; the std::set iterates in sorted order. -/
def unvisitedInit (g : Graph) : List FPath :=
  g.foldl (fun s kv => setInsert kv.1 s) []

/-- The selection scan: current starts at *unvisited.begin() and every
element with a strictly smaller distance replaces it, in set order. -/
def selectMin (d : DistMap) (cur : FPath) (l : List FPath) : FPath :=
  l.foldl (fun c p => if dfind d p < dfind d c then p else c) cur

/-- The relaxation loop over adjList[current]: alt = distances[current]+1,
update distance and predecessor when alt is strictly smaller. -/
def relaxAll (current : FPath) (ns : List FPath) (dist : DistMap)
    (prev : PrevMap) : DistMap × PrevMap :=
  match ns with
  | [] => (dist, prev)
  | n :: rest =>
      let alt := dfind dist current + 1
      if alt < dfind dist n then
        relaxAll current rest (dupdate dist n alt) (pupdate prev n current)
      else
        relaxAll current rest dist prev

/-- The fold of selectMin keeps the accumulator or moves to a scanned
element; needed for termination of the main while loop. -/
theorem selectMin_mem (d : DistMap) (cur : FPath) (l : List FPath) :
    selectMin d cur l = cur ∨ selectMin d cur l ∈ l := by
  induction l generalizing cur with
  | nil => exact Or.inl rfl
  | cons p ps ih =>
      unfold selectMin
      simp only [List.foldl_cons]
      by_cases h : dfind d p < dfind d cur
      · simp only [h, if_pos]
        rcases ih p with h' | h'
        · exact Or.inr (by simp [selectMin] at h' ⊢; simp [h'])
        · exact Or.inr (List.mem_cons_of_mem _ h')
      · simp only [h, if_neg, if_false]
        rcases ih cur with h' | h'
        · exact Or.inl h'
        · exact Or.inr (List.mem_cons_of_mem _ h')

/-- The main while loop of shortestPath: select the unvisited vertex of
minimum distance, stop when it is the destination, otherwise erase it
and relax its neighbors. The selected vertex is a member of the set
(selectMin_mem), so each iteration shrinks the set by exactly one; the
recursion is driven by a fuel equal to the current set size, which makes
it run exactly until the set is empty, as the C++ while loop does. -/
def dijkstraLoop (g : Graph) (dest : FPath) :
    Nat → List FPath → DistMap → PrevMap → PrevMap
  | 0, _, _, prev => prev
  | _ + 1, [], _, prev => prev
  | fuel + 1, h :: t, dist, prev =>
      let current := selectMin dist h (h :: t)
      if current = dest then prev
      else
        let u' := (h :: t).erase current
        let dp := relaxAll current (neighbors g current) dist prev
        dijkstraLoop g dest fuel u' dp.1 dp.2

/-- The reconstruction loop: for (p = destination; p != ""; p = previous[p])
path.push_back(p). In the C++ code the predecessor chain of a Dijkstra
run is acyclic and no longer than the vertex count, so a fuel of the map
size plus two executes the loop to its exit condition. -/
def reconstructAux (prev : PrevMap) : Nat → FPath → List FPath
  | 0, _ => []
  | fuel + 1, p =>
      if p = "" then [] else p :: reconstructAux prev fuel (pfind prev p)

/-- shortestPath from graph.cpp: initialize, set distances[source] = 0,
run the selection loop, then walk predecessors back from destination and
reverse. -/
def shortestPath (g : Graph) (source destination : FPath) : List FPath :=
  let dist0 := dupdate (distInit g) source 0
  let unvisited := unvisitedInit g
  let prev := dijkstraLoop g destination unvisited.length unvisited dist0 (prevInit g)
  (reconstructAux prev (g.length + 2) destination).reverse

/-! ## Minimum spanning tree (Prim with unit weights), from minSpanTree -/

/-- The result map std::map<fs::path, std::vector<fs::path>> tree. -/
abbrev MSTree := List (FPath × List FPath)

/-- tree[k].push_back(c): operator[] materializes the key with an empty
vector when absent, then the child is appended. -/
def treePush (t : MSTree) (k c : FPath) : MSTree :=
  match t with
  | [] => [(k, [c])]
  | (k', v) :: rest =>
      if k' = k then (k', v ++ [c]) :: rest
      else (k', v) :: treePush rest k c

/-- Children of a vertex in the result tree (empty for an absent key). -/
def treeChildren (t : MSTree) (p : FPath) : List FPath :=
  (lookupList t p).getD []

/-- adjList.begin()->first: the least key of the std::map, none when the
map is empty (the C++ code dereferences begin() unconditionally, which
is undefined on an empty map). -/
def minKey (g : Graph) : Option FPath :=
  match g with
  | [] => none
  | (k, _) :: rest =>
      some (rest.foldl (fun m kv => if pathLt kv.1 m then kv.1 else m) k)

/-- Total number of stored edges; bounds the pushes of the Prim loop. -/
def totalEdges (g : Graph) : Nat :=
  (g.map (fun kv => kv.2.length)).sum

/-- Ordering of std::pair<int, fs::path> used by the min-priority queue:
lexicographic on (weight, path). -/
def pqLe (a b : Int × FPath) : Bool :=
  decide (a.1 < b.1) || (decide (a.1 = b.1) && (pathLt a.2 b.2 || decide (a.2 = b.2)))

/-- Insertion into the priority queue, modelled as a sorted list whose
head is the minimum pair. -/
def pqInsert (x : Int × FPath) (l : List (Int × FPath)) :
    List (Int × FPath) :=
  match l with
  | [] => [x]
  | y :: ys => if pqLe x y then x :: y :: ys else y :: pqInsert x ys

/-- The scan over adjList[current]: every neighbor not yet visited is
recorded as a tree child of current and pushed with weight 1. The
visited set does not change during the scan, exactly as in the C++
loop body. -/
def mstScan (visited : List FPath) (current : FPath) (ns : List FPath)
    (t : MSTree) (pq : List (Int × FPath)) : MSTree × List (Int × FPath) :=
  match ns with
  | [] => (t, pq)
  | n :: rest =>
      if n ∈ visited then mstScan visited current rest t pq
      else
        mstScan visited current rest (treePush t current n)
          (pqInsert (1, n) pq)

/-- The while loop of minSpanTree: pop the minimum pair, skip it when
already visited, otherwise mark visited and scan its neighbors. Each
iteration pops one element and every push consumes a stored edge, so a
fuel of totalEdges + 2 runs the loop to its natural exit. -/
def mstLoop (g : Graph) : Nat → List (Int × FPath) → List FPath → MSTree → MSTree
  | 0, _, _, t => t
  | _ + 1, [], _, t => t
  | fuel + 1, x :: pqRest, visited, t =>
      if x.2 ∈ visited then mstLoop g fuel pqRest visited t
      else
        let visited' := x.2 :: visited
        let tp := mstScan visited' x.2 (neighbors g x.2) t pqRest
        mstLoop g fuel tp.2 visited' tp.1

/-- minSpanTree from graph.cpp: start from adjList.begin()->first and run
the Prim loop seeded with (0, start). On the empty map begin() cannot be
dereferenced (undefined behavior in the C++ source); that case is the
none value here. -/
def minSpanTree (g : Graph) : Option MSTree :=
  match minKey g with
  | none => none
  | some start => some (mstLoop g (totalEdges g + 2) [(0, start)] [] [])

/-! ## Basic lemmas about the graph store -/

/-- Looking up a key in a map extended on the right with a fresh entry. -/
theorem lookupList_append_single (g : Graph) (p q : FPath) :
    lookupList (g ++ [(p, [])]) q =
      ((lookupList g q).orElse (fun _ => if p = q then some [] else none)) := by
  induction g with
  | nil => simp [lookupList]
  | cons kv rest ih =>
      obtain ⟨k, v⟩ := kv
      by_cases h : k = q <;> simp [lookupList, h, ih]

/-- addVertex makes the vertex present, with its previous neighbor list
(empty when it was absent). -/
theorem lookupList_addVertex_self (g : Graph) (p : FPath) :
    lookupList (addVertex g p) p = some (neighbors g p) := by
  unfold addVertex neighbors
  cases h : lookupList g p with
  | some v => simp [h]
  | none => simp [h, lookupList_append_single]

/-- addVertex does not change the entry of any other key. -/
theorem lookupList_addVertex_other (g : Graph) (p q : FPath) (hne : q ≠ p) :
    lookupList (addVertex g p) q = lookupList g q := by
  unfold addVertex
  cases h : lookupList g p with
  | some v => simp
  | none =>
      simp [lookupList_append_single]
      cases h' : lookupList g q with
      | some w => simp
      | none =>
          simp
          exact fun he => hne he.symm

/-- addVertex never changes the neighbor list any vertex exposes. -/
theorem neighbors_addVertex (g : Graph) (p q : FPath) :
    neighbors (addVertex g p) q = neighbors g q := by
  by_cases h : q = p
  · subst h
    unfold neighbors
    rw [lookupList_addVertex_self]
    simp [neighbors]
  · unfold neighbors; rw [lookupList_addVertex_other g p q h]

/-- appendNeighbor appends to the entry of the source key. -/
theorem lookupList_appendNeighbor_self (g : Graph) (s d : FPath)
    (v : List FPath) (h : lookupList g s = some v) :
    lookupList (appendNeighbor g s d) s = some (v ++ [d]) := by
  induction g with
  | nil => simp [lookupList] at h
  | cons kv rest ih =>
      obtain ⟨k, w⟩ := kv
      by_cases hk : k = s
      · subst hk
        simp [lookupList] at h
        simp [appendNeighbor, lookupList, h]
      · simp [lookupList, hk] at h
        simp [appendNeighbor, lookupList, hk, ih h]

/-- appendNeighbor does not touch the entry of any other key. -/
theorem lookupList_appendNeighbor_other (g : Graph) (s d q : FPath)
    (hne : q ≠ s) :
    lookupList (appendNeighbor g s d) q = lookupList g q := by
  induction g with
  | nil => simp [appendNeighbor]
  | cons kv rest ih =>
      obtain ⟨k, w⟩ := kv
      by_cases hk : k = s
      · subst hk
        have hkq : ¬ k = q := fun he => hne (by rw [he])
        simp [appendNeighbor, lookupList, hkq]
      · by_cases hq : k = q
        · subst hq
          simp [appendNeighbor, lookupList, hk]
        · simp [appendNeighbor, lookupList, hk, hq, ih]

/-- appendNeighbor keeps exactly the keys of the map. -/
theorem hasVertex_appendNeighbor (g : Graph) (s d q : FPath) :
    hasVertex (appendNeighbor g s d) q = hasVertex g q := by
  by_cases hq : q = s
  · subst hq
    cases h : lookupList g q with
    | some v => simp [hasVertex, lookupList_appendNeighbor_self g q d v h, h]
    | none =>
        have : lookupList (appendNeighbor g q d) q = none := by
          induction g with
          | nil => simp [appendNeighbor, lookupList]
          | cons kv rest ih =>
              obtain ⟨k, w⟩ := kv
              by_cases hk : k = q
              · subst hk; simp [lookupList] at h
              · simp [lookupList, hk] at h
                simp [appendNeighbor, lookupList, hk, ih h]
        simp [hasVertex, this, h]
  · simp [hasVertex, lookupList_appendNeighbor_other g s d q hq]

/-- After addEdge, the source entry is its old list with the destination
appended: push_back semantics, no deduplication. -/
theorem neighbors_addEdge_self (g : Graph) (a b : FPath) :
    neighbors (addEdge g a b) a = neighbors g a ++ [b] := by
  unfold addEdge
  have h2 : lookupList (addVertex (addVertex g a) b) a
      = some (neighbors g a) := by
    by_cases hba : a = b
    · subst hba
      rw [lookupList_addVertex_self, neighbors_addVertex]
    · rw [lookupList_addVertex_other _ _ _ hba, lookupList_addVertex_self]
  unfold neighbors
  rw [lookupList_appendNeighbor_self _ _ _ _ h2]
  rfl

/-- addEdge leaves both endpoints present as vertices. -/
theorem hasVertex_addEdge (g : Graph) (a b : FPath) :
    hasVertex (addEdge g a b) a = true ∧ hasVertex (addEdge g a b) b = true := by
  unfold addEdge
  rw [hasVertex_appendNeighbor, hasVertex_appendNeighbor]
  constructor
  · by_cases hba : a = b
    · subst hba; simp [hasVertex, lookupList_addVertex_self]
    · unfold hasVertex
      rw [lookupList_addVertex_other _ _ _ hba, lookupList_addVertex_self]
      rfl
  · simp [hasVertex, lookupList_addVertex_self]

/-- A key is absent from the map exactly when lookup yields nothing. -/
theorem lookupList_none_iff (g : Graph) (p : FPath) :
    lookupList g p = none ↔ p ∉ g.map Prod.fst := by
  induction g with
  | nil => simp [lookupList]
  | cons kv rest ih =>
      obtain ⟨k, v⟩ := kv
      by_cases h : k = p
      · subst h; simp [lookupList]
      · simp only [lookupList, h, if_false, List.map_cons, List.mem_cons, ih]
        constructor
        · intro hn hor
          rcases hor with he | hm
          · exact h he.symm
          · exact hn hm
        · exact fun hn hm => hn (Or.inr hm)

/-- The second addVertex call with the same path is a no-op. -/
theorem addVertex_addVertex (g : Graph) (p : FPath) :
    addVertex (addVertex g p) p = addVertex g p := by
  show (if (lookupList (addVertex g p) p).isSome then addVertex g p
        else addVertex g p ++ [(p, [])]) = addVertex g p
  rw [lookupList_addVertex_self]
  simp

/-! ## Claims about the Graph Store operations -/

/-- Claim C7: addEdge never fails (it is a total operation on any graph),
leaves both endpoints present as vertices, and appends the destination to
the source neighbor list, so the count of that neighbor rises by exactly
one — duplicate edges are not deduplicated. -/
theorem addEdge_appends_once (g : Graph) (a b : FPath) :
    hasVertex (addEdge g a b) a = true ∧
    hasVertex (addEdge g a b) b = true ∧
    (neighbors (addEdge g a b) a).count b = (neighbors g a).count b + 1 := by
  refine ⟨(hasVertex_addEdge g a b).1, (hasVertex_addEdge g a b).2, ?_⟩
  rw [neighbors_addEdge_self]
  simp

/-- Claim C8, counterexample: on a graph that already contains the vertex,
adding it twice leaves the vertex count unchanged, not raised by one. -/
theorem addVertex_twice_size_cex :
    ¬ (numVertices (addVertex (addVertex [("a", [])] "a") "a")
        = numVertices [("a", [])] + 1) := by decide

/-- Claim C8, amended: for a path that is not yet a vertex, adding it twice
raises the vertex count by exactly one; the second call is a no-op, and a
single call grows the vertex count by at most one on any graph. -/
theorem addVertex_idempotent (g : Graph) (p : FPath)
    (h : hasVertex g p = false) :
    numVertices (addVertex (addVertex g p) p) = numVertices g + 1 ∧
    addVertex (addVertex g p) p = addVertex g p ∧
    numVertices (addVertex g p) ≤ numVertices g + 1 := by
  have hnone : lookupList g p = none := by
    unfold hasVertex at h
    cases hl : lookupList g p with
    | none => rfl
    | some v => rw [hl] at h; simp at h
  have hnotmem : p ∉ g.map Prod.fst := (lookupList_none_iff g p).mp hnone
  have hadd : addVertex g p = g ++ [(p, [])] := by
    unfold addVertex; rw [hnone]; simp
  have hsize : numVertices (addVertex g p) = numVertices g + 1 := by
    rw [hadd]
    unfold numVertices
    rw [List.map_append, List.toFinset_append]
    simp only [List.map_cons, List.map_nil, List.toFinset_cons, List.toFinset_nil]
    rw [Finset.union_comm]
    simp [Finset.card_insert_of_not_mem, List.mem_toFinset, hnotmem]
    omega
  refine ⟨?_, addVertex_addVertex g p, le_of_eq hsize⟩
  rw [addVertex_addVertex g p, hsize]

/-- Claim C8, witness instance of the amended statement. -/
theorem addVertex_idempotent_witness :
    hasVertex [] "a" = false ∧
    (numVertices (addVertex (addVertex [] "a") "a") = numVertices [] + 1 ∧
     addVertex (addVertex [] "a") "a" = addVertex [] "a" ∧
     numVertices (addVertex [] "a") ≤ numVertices [] + 1) :=
  ⟨by decide, addVertex_idempotent [] "a" (by decide)⟩

/-! ## Claims settled by evaluating the embedded algorithms -/

/-- Claim C1: the code does not report a missing path. In the graph with
the single edge a → b, the destination a is unreachable from the source
b, yet shortestPath returns the one-element sequence [a], which is not a
path from b and carries no explicit no-path outcome. -/
theorem shortestPath_unreachable_truncated :
    shortestPath (addEdge [] "a" "b") "b" "a" = ["a"] := by decide

/-- Claim C2: on the empty graph minSpanTree dereferences begin() of an
empty map; in this embedding that undefined selection of a start vertex
is the none case, not any reported empty-graph failure. -/
theorem minSpanTree_empty_undefined : minSpanTree ([] : Graph) = none := by
  rfl

/-- Claim C4: on the chain a → b → c → d, shortestPath from a to d yields
the vertex sequence [a, b, c, d] of length 4, hop count 3. -/
theorem shortestPath_chain :
    shortestPath (addEdge (addEdge (addEdge [] "a" "b") "b" "c") "c" "d")
        "a" "d" = ["a", "b", "c", "d"] ∧
    (shortestPath (addEdge (addEdge (addEdge [] "a" "b") "b" "c") "c" "d")
        "a" "d").length = 4 := by
  constructor <;> decide

/-- Claim C10: on the diamond a → b, a → c, b → d, c → d, the map that
minSpanTree returns records d as a child of both b and c, so the result
is not a tree. -/
theorem minSpanTree_diamond_double_parent :
    "d" ∈ treeChildren
        ((minSpanTree (addEdge (addEdge (addEdge (addEdge [] "a" "b")
          "a" "c") "b" "d") "c" "d")).getD []) "b" ∧
    "d" ∈ treeChildren
        ((minSpanTree (addEdge (addEdge (addEdge (addEdge [] "a" "b")
          "a" "c") "b" "d") "c" "d")).getD []) "c" ∧
    ("b" : FPath) ≠ "c" := by
  refine ⟨by decide, by decide, by decide⟩

/-- The star graph of the spec: one containment edge from the root to
each of its children, no deeper edges. -/
def starGraph (r : FPath) (cs : List FPath) : Graph :=
  cs.foldl (fun g c => addEdge g r c) []

/-- Claim C9, counterexample: the empty path can be a vertex, and it
collides with the sentinel of the predecessor map, so the query from the
empty path to itself returns the empty sequence instead of the
single-vertex path. -/
theorem shortestPath_self_empty_cex :
    ¬ (shortestPath (addVertex [] "") "" "" = [""]) := by decide

/-- Claim C3, counterexample: in the star with root b and single child a,
the start vertex of minSpanTree is the least map key a, not the root, so
the returned tree is empty and the root has no recorded children. -/
theorem minSpanTree_star_claim_cex :
    ¬ ((treeChildren ((minSpanTree (starGraph "b" ["a"])).getD [])
        "b").length = 1) := by decide

/-! ## Graph Builder (buildGraph from graph.cpp)

The filesystem itself is external to the program: per the spec, the
Directory Enumerator yields for a path its immediate entries with their
types, or fails with a recoverable error such as permission denied. The
mutual inductive below models the subtree that enumerator exposes: a
node is a plain file, a directory whose enumeration succeeds with the
listed named entries, or a directory whose enumeration throws. A tree
shape matches the no-cycle assumption buildGraph requires. -/

mutual
inductive FSTree where
  | file : FSTree
  | dirOk : FSForest → FSTree
  | dirDenied : FSTree
inductive FSForest where
  | fnil : FSForest
  | fcons : String → FSTree → FSForest → FSForest
end

/-- entry.path(): the path of a named entry of a directory. -/
def childPath (p n : FPath) : FPath := p ++ "/" ++ n

mutual
/-- The body of the try block after addEdge: recurse when the entry is a
directory. A denied directory throws from the directory_iterator of the
recursive call before any of its edges is added; the catch in the caller
swallows it and continues, leaving the graph exactly as after addEdge. -/
def buildEntry (g : Graph) (c : FPath) (t : FSTree) : Graph :=
  match t with
  | .file => g
  | .dirDenied => g
  | .dirOk es => buildForest g c es
termination_by structural t

/-- The loop of buildGraph over the entries of an accessible directory:
add the edge root → entry, then recurse into directory entries. -/
def buildForest (g : Graph) (p : FPath) (es : FSForest) : Graph :=
  match es with
  | .fnil => g
  | .fcons n t rest =>
      buildForest (buildEntry (addEdge g p (childPath p n)) (childPath p n) t) p rest
termination_by structural es
end

/-- buildGraph from graph.cpp. The root argument carries what the
enumerator reports for the root: none when the root does not exist,
some file when it is not a directory — both return immediately with the
graph untouched. A denied root throws from the top-level
directory_iterator where no catch exists, the error case. -/
def buildGraph (g : Graph) (root : FPath) (fs : Option FSTree) :
    Except Unit Graph :=
  match fs with
  | none => Except.ok g
  | some .file => Except.ok g
  | some (.dirOk es) => Except.ok (buildForest g root es)
  | some .dirDenied => Except.error ()

/-- Whether the forest contains an entry with the given name. -/
def forestHas (es : FSForest) (n : String) : Bool :=
  match es with
  | .fnil => false
  | .fcons m _ rest => m = n || forestHas rest n

/-- addEdge only ever extends a neighbor list on the right. -/
theorem neighbors_addEdge_ext (g : Graph) (x y a : FPath) :
    ∃ l, neighbors (addEdge g x y) a = neighbors g a ++ l := by
  by_cases h : a = x
  · subst h; exact ⟨[y], neighbors_addEdge_self g a y⟩
  · refine ⟨[], ?_⟩
    unfold addEdge neighbors
    rw [lookupList_appendNeighbor_other _ _ _ _ h]
    have h1 := neighbors_addVertex (addVertex g x) y a
    have h2 := neighbors_addVertex g x a
    unfold neighbors at h1 h2
    rw [h1, h2, List.append_nil]

mutual
/-- Descending into one entry only ever extends neighbor lists. -/
theorem buildEntry_neighbors_ext (g : Graph) (c : FPath) (t : FSTree)
    (a : FPath) :
    ∃ l, neighbors (buildEntry g c t) a = neighbors g a ++ l :=
  match t with
  | .file => ⟨[], by simp [buildEntry]⟩
  | .dirDenied => ⟨[], by simp [buildEntry]⟩
  | .dirOk es => by
      have h := buildForest_neighbors_ext g c es a
      simpa [buildEntry] using h
termination_by structural t

/-- The builder loop only ever extends neighbor lists. -/
theorem buildForest_neighbors_ext (g : Graph) (p : FPath) (es : FSForest)
    (a : FPath) :
    ∃ l, neighbors (buildForest g p es) a = neighbors g a ++ l :=
  match es with
  | .fnil => ⟨[], by simp [buildForest]⟩
  | .fcons n t rest => by
      obtain ⟨l0, h0⟩ := neighbors_addEdge_ext g p (childPath p n) a
      obtain ⟨l1, h1⟩ :=
        buildEntry_neighbors_ext (addEdge g p (childPath p n)) (childPath p n) t a
      obtain ⟨l2, h2⟩ :=
        buildForest_neighbors_ext
          (buildEntry (addEdge g p (childPath p n)) (childPath p n) t) p rest a
      refine ⟨l0 ++ l1 ++ l2, ?_⟩
      show neighbors
        (buildForest (buildEntry (addEdge g p (childPath p n)) (childPath p n) t) p rest) a
          = neighbors g a ++ (l0 ++ l1 ++ l2)
      rw [h2, h1, h0]
      simp [List.append_assoc]
termination_by structural es
end

/-- The builder loop records the containment edge of every named entry
of the forest; structural recursion along the sibling spine. -/
theorem buildForest_edge_mem (g : Graph) (p : FPath) (es : FSForest) :
    ∀ n, forestHas es n = true →
      childPath p n ∈ neighbors (buildForest g p es) p :=
  match es with
  | .fnil => by intro n h; simp [forestHas] at h
  | .fcons m t rest => by
      intro n h
      simp only [forestHas, Bool.or_eq_true, decide_eq_true_eq] at h
      show childPath p n ∈ neighbors
        (buildForest (buildEntry (addEdge g p (childPath p m)) (childPath p m) t) p rest) p
      rcases h with he | hm
      · have hbase : childPath p n ∈ neighbors (addEdge g p (childPath p m)) p := by
          rw [he, neighbors_addEdge_self]
          exact List.mem_append_right _ (List.mem_singleton_self _)
        obtain ⟨l1, h1⟩ :=
          buildEntry_neighbors_ext (addEdge g p (childPath p m)) (childPath p m) t p
        obtain ⟨l2, h2⟩ :=
          buildForest_neighbors_ext
            (buildEntry (addEdge g p (childPath p m)) (childPath p m) t) p rest p
        rw [h2, h1]
        exact List.mem_append_left _ (List.mem_append_left _ hbase)
      · exact buildForest_edge_mem
          (buildEntry (addEdge g p (childPath p m)) (childPath p m) t) p rest n hm
termination_by structural es

/-- Claim C5: building an accessible directory never aborts — it returns
the folded graph — and the containment edge of every named entry,
accessible or not, is present in the result; a denied subtree among the
entries does not stop the loop over its siblings. -/
theorem buildGraph_partial_failure (g : Graph) (p : FPath) (es : FSForest) :
    buildGraph g p (some (.dirOk es)) = Except.ok (buildForest g p es) ∧
    ∀ n, forestHas es n = true →
      childPath p n ∈ neighbors (buildForest g p es) p :=
  ⟨rfl, buildForest_edge_mem g p es⟩

/-- Claim C5, witness: a root with a denied subdirectory followed by an
accessible file builds without aborting and records the file's edge. -/
theorem buildGraph_partial_failure_witness :
    forestHas (.fcons "bad" .dirDenied (.fcons "ok.txt" .file .fnil)) "ok.txt"
      = true ∧
    buildGraph [] "r"
        (some (.dirOk (.fcons "bad" .dirDenied (.fcons "ok.txt" .file .fnil))))
      = Except.ok
          (buildForest [] "r" (.fcons "bad" .dirDenied (.fcons "ok.txt" .file .fnil))) ∧
    childPath "r" "ok.txt" ∈ neighbors
        (buildForest [] "r" (.fcons "bad" .dirDenied (.fcons "ok.txt" .file .fnil))) "r" :=
  ⟨by decide,
   (buildGraph_partial_failure [] "r"
      (.fcons "bad" .dirDenied (.fcons "ok.txt" .file .fnil))).1,
   (buildGraph_partial_failure [] "r"
      (.fcons "bad" .dirDenied (.fcons "ok.txt" .file .fnil))).2 "ok.txt" (by decide)⟩

/-- Claim C6: for a root that does not exist or is not a directory,
buildGraph returns at once with no error report and the graph — vertex
set and every adjacency list — exactly as it was. -/
theorem buildGraph_invalid_root_noop (g : Graph) (root : FPath) :
    buildGraph g root none = Except.ok g ∧
    buildGraph g root (some .file) = Except.ok g :=
  ⟨rfl, rfl⟩

/-! ## Claim C9: shortest path from a vertex to itself -/

/-- Every predecessor stored by the initialization is the empty path. -/
theorem pfind_prevInit (g : Graph) (x : FPath) :
    pfind (prevInit g) x = "" := by
  induction g with
  | nil => rfl
  | cons kv rest ih =>
      show pfind ((kv.1, "") :: prevInit rest) x = ""
      unfold pfind
      by_cases h : kv.1 = x <;> simp [h, ih]

/-- Reading back the key just assigned through operator[]. -/
theorem dfind_dupdate_self (d : DistMap) (k : FPath) (v : Int) :
    dfind (dupdate d k v) k = v := by
  induction d with
  | nil => simp [dupdate, dfind]
  | cons kv rest ih =>
      obtain ⟨k', w⟩ := kv
      by_cases h : k' = k <;> simp [dupdate, dfind, h, ih]

/-- Assignment through operator[] leaves other keys unchanged. -/
theorem dfind_dupdate_other (d : DistMap) (k : FPath) (v : Int) (q : FPath)
    (h : q ≠ k) :
    dfind (dupdate d k v) q = dfind d q := by
  induction d with
  | nil =>
      simp [dupdate, dfind]
      exact fun he => absurd he.symm h
  | cons kv rest ih =>
      obtain ⟨k', w⟩ := kv
      by_cases h' : k' = k
      · subst h'
        have hne : ¬ k' = q := fun he => h he.symm
        simp [dupdate, dfind, hne]
      · by_cases hq : k' = q
        · subst hq
          simp [dupdate, dfind, h', h]
        · simp [dupdate, dfind, h', hq, ih]

/-- After initialization every known vertex is at distance INT_MAX. -/
theorem dfind_distInit_mem (g : Graph) (u : FPath)
    (hu : u ∈ g.map Prod.fst) :
    dfind (distInit g) u = INT_MAX := by
  induction g with
  | nil => simp at hu
  | cons kv rest ih =>
      show dfind ((kv.1, INT_MAX) :: distInit rest) u = INT_MAX
      unfold dfind
      by_cases h : kv.1 = u
      · simp [h]
      · simp only [List.map_cons, List.mem_cons] at hu
        rcases hu with he | hm
        · exact absurd he.symm h
        · simp [h, ih hm]

/-- Membership in a std::set after one insertion. -/
theorem mem_setInsert (p q : FPath) (l : List FPath) :
    q ∈ setInsert p l ↔ q = p ∨ q ∈ l := by
  induction l with
  | nil => simp [setInsert]
  | cons x xs ih =>
      unfold setInsert
      by_cases h1 : pathLt p x = true
      · simp [h1]
      · by_cases h2 : p = x
        · subst h2; simp [h1]
        · simp [h1, h2, ih]
          tauto

/-- The unvisited set holds exactly the keys of the adjacency map. -/
theorem mem_unvisitedInit (g : Graph) (u : FPath) :
    u ∈ unvisitedInit g ↔ u ∈ g.map Prod.fst := by
  have general : ∀ (l : Graph) (s : List FPath),
      u ∈ l.foldl (fun s kv => setInsert kv.1 s) s ↔
        u ∈ s ∨ u ∈ l.map Prod.fst := by
    intro l
    induction l with
    | nil => intro s; simp
    | cons kv rest ih =>
        intro s
        simp only [List.foldl_cons, ih, mem_setInsert, List.map_cons,
          List.mem_cons]
        tauto
  unfold unvisitedInit
  rw [general g []]
  simp

/-- The selection scan lands on the unique vertex at distance zero when
every other candidate sits at INT_MAX. -/
theorem selectMin_unique_zero (d : DistMap) (v : FPath) :
    ∀ (l : List FPath) (c : FPath),
      dfind d v = 0 →
      (∀ u ∈ l, u = v ∨ dfind d u = INT_MAX) →
      (c = v ∨ dfind d c = INT_MAX) →
      (v ∈ l ∨ c = v) →
      selectMin d c l = v := by
  intro l
  induction l with
  | nil =>
      intro c hv hl hc hin
      rcases hin with h | h
      · simp at h
      · simpa [selectMin] using h
  | cons u us ih =>
      intro c hv hl hc hin
      have hu := hl u (List.mem_cons_self u us)
      have hstep : selectMin d c (u :: us)
          = selectMin d (if dfind d u < dfind d c then u else c) us := by
        simp [selectMin]
      rw [hstep]
      have hmax0 : ¬ (INT_MAX < (0 : Int)) := by norm_num [INT_MAX]
      have h0max : (0 : Int) < INT_MAX := by norm_num [INT_MAX]
      have hmaxne : INT_MAX ≠ (0 : Int) := by norm_num [INT_MAX]
      rcases hc with hcv | hcM
      · subst hcv
        have hnotlt : ¬ (dfind d u < dfind d c) := by
          rcases hu with huv | huM
          · rw [huv, hv]; simp [hv]
          · rw [huM, hv]; exact hmax0
        rw [if_neg hnotlt]
        exact ih c hv (fun x hx => hl x (List.mem_cons_of_mem _ hx))
          (Or.inl rfl) (Or.inr rfl)
      · rcases hu with huv | huM
        · subst huv
          have hlt : dfind d u < dfind d c := by rw [hv, hcM]; exact h0max
          rw [if_pos hlt]
          exact ih u hv (fun x hx => hl x (List.mem_cons_of_mem _ hx))
            (Or.inl rfl) (Or.inr rfl)
        · have hnotlt : ¬ (dfind d u < dfind d c) := by rw [huM, hcM]; simp
          rw [if_neg hnotlt]
          have hvin : v ∈ us := by
            rcases hin with hin | hcv
            · rcases List.mem_cons.mp hin with he | hm
              · exfalso
                rw [← he] at huM
                rw [hv] at huM
                exact hmaxne huM.symm
              · exact hm
            · exfalso
              rw [hcv] at hcM
              rw [hv] at hcM
              exact hmaxne hcM.symm
          exact ih c hv (fun x hx => hl x (List.mem_cons_of_mem _ hx))
            (Or.inr hcM) (Or.inl hvin)

/-- Claim C9, counterexample machinery lives above; the amended claim:
for every vertex, other than the empty path that collides with the
sentinel of the predecessor walk, the query from the vertex to itself is
the single-vertex path. -/
theorem shortestPath_self (g : Graph) (v : FPath)
    (hv : hasVertex g v = true) (hne : v ≠ "") :
    shortestPath g v v = [v] := by
  have hkey : v ∈ g.map Prod.fst := by
    by_contra hcon
    have hnone := (lookupList_none_iff g v).mpr hcon
    unfold hasVertex at hv
    rw [hnone] at hv
    simp at hv
  have hmem : v ∈ unvisitedInit g := (mem_unvisitedInit g v).mpr hkey
  have hdv : dfind (dupdate (distInit g) v 0) v = 0 :=
    dfind_dupdate_self _ _ _
  have hdu : ∀ u ∈ unvisitedInit g,
      u = v ∨ dfind (dupdate (distInit g) v 0) u = INT_MAX := by
    intro u hu
    by_cases h : u = v
    · exact Or.inl h
    · right
      rw [dfind_dupdate_other _ _ _ _ h]
      exact dfind_distInit_mem g u ((mem_unvisitedInit g u).mp hu)
  have hloop : dijkstraLoop g v (unvisitedInit g).length (unvisitedInit g)
      (dupdate (distInit g) v 0) (prevInit g) = prevInit g := by
    cases hul : unvisitedInit g with
    | nil => rw [hul] at hmem; simp at hmem
    | cons h t =>
        rw [hul] at hdu hmem
        have hsel : selectMin (dupdate (distInit g) v 0) h (h :: t) = v :=
          selectMin_unique_zero _ v (h :: t) h hdv hdu
            (hdu h (List.mem_cons_self h t)) (Or.inl hmem)
        simp only [List.length_cons, dijkstraLoop, hsel, if_pos]
  have hrec : reconstructAux (prevInit g) (g.length + 2) v = [v] := by
    show reconstructAux (prevInit g) (g.length + 1 + 1) v = [v]
    rw [reconstructAux]
    rw [if_neg hne, pfind_prevInit]
    show v :: reconstructAux (prevInit g) (g.length + 1) "" = [v]
    rw [reconstructAux]
    simp
  show (reconstructAux
      (dijkstraLoop g v (unvisitedInit g).length (unvisitedInit g)
        (dupdate (distInit g) v 0) (prevInit g)) (g.length + 2) v).reverse = [v]
  rw [hloop, hrec]
  rfl

/-- Claim C9, witness instance of the amended statement. -/
theorem shortestPath_self_witness :
    hasVertex [("a", [])] "a" = true ∧ ("a" : FPath) ≠ "" ∧
    shortestPath [("a", [])] "a" "a" = ["a"] :=
  ⟨by decide, by decide, shortestPath_self [("a", [])] "a" (by decide) (by decide)⟩

/-! ## Claim C3: minimum spanning tree of a star graph -/

/-- The container order is irreflexive. -/
theorem listLt_irrefl : ∀ l : List Char, listLt l l = false := by
  intro l
  induction l with
  | nil => rfl
  | cons a as ih => simp [listLt, ih]

/-- The container order is asymmetric. -/
theorem listLt_asymm : ∀ a b : List Char,
    listLt a b = true → listLt b a = false := by
  intro a
  induction a with
  | nil =>
      intro b h
      cases b with
      | nil => simp [listLt] at h
      | cons x xs => simp [listLt]
  | cons x xs ih =>
      intro b h
      cases b with
      | nil => simp [listLt] at h
      | cons y ys =>
          simp only [listLt] at h ⊢
          by_cases h1 : x.toNat < y.toNat
          · have h2 : ¬ y.toNat < x.toNat := by omega
            simp [h1, h2]
          · by_cases h2 : y.toNat < x.toNat
            · simp [h1, h2] at h
            · simp only [if_neg h1, if_neg h2] at h ⊢
              exact ih ys h

theorem pathLt_irrefl (p : FPath) : pathLt p p = false :=
  listLt_irrefl p.data

theorem pathLt_asymm (a b : FPath) (h : pathLt a b = true) :
    pathLt b a = false :=
  listLt_asymm a.data b.data h

theorem pathLt_ne (a b : FPath) (h : pathLt a b = true) : a ≠ b := by
  intro he
  rw [he] at h
  rw [pathLt_irrefl] at h
  exact Bool.false_ne_true h

/-- Lookup in the block of child entries, which all carry empty lists. -/
theorem lookupList_mapEmpty (l : List FPath) (q : FPath) :
    lookupList (l.map (fun c => (c, ([] : List FPath)))) q
      = if q ∈ l then some [] else none := by
  induction l with
  | nil => simp [lookupList]
  | cons x xs ih =>
      by_cases h : x = q
      · subst h; simp [lookupList]
      · have hqx : ¬ q = x := fun he => h he.symm
        simp [lookupList, h, ih, hqx]

/-- One addEdge step while building a star: the root entry grows, the
fresh child gains an empty entry at the end of the map list. -/
theorem addEdge_star_step (r c : FPath) (done : List FPath)
    (hcr : r ≠ c) (hcd : c ∉ done) :
    addEdge ((r, done) :: done.map (fun x => (x, []))) r c
      = (r, done ++ [c]) :: (done ++ [c]).map (fun x => (x, [])) := by
  have hlookr : lookupList ((r, done) :: done.map (fun x => (x, ([] : List FPath)))) r
      = some done := by simp [lookupList]
  have hlookc : lookupList ((r, done) :: done.map (fun x => (x, ([] : List FPath)))) c
      = none := by
    simp [lookupList, hcr, lookupList_mapEmpty, hcd]
  unfold addEdge
  rw [show addVertex ((r, done) :: done.map (fun x => (x, []))) r
      = (r, done) :: done.map (fun x => (x, [])) from by
    simp [addVertex, hlookr]]
  rw [show addVertex ((r, done) :: done.map (fun x => (x, []))) c
      = (r, done) :: (done.map (fun x => (x, [])) ++ [(c, [])]) from by
    simp [addVertex, hlookc]]
  show appendNeighbor ((r, done) :: (done.map (fun x => (x, [])) ++ [(c, [])])) r c = _
  simp only [appendNeighbor, if_pos]
  rw [List.map_append]
  simp

/-- Folding addEdge over the remaining children extends the root entry
and appends the fresh child entries in order. -/
theorem starGraph_fold (r : FPath) :
    ∀ (cs done : List FPath),
      (∀ c ∈ cs, r ≠ c) → (∀ c ∈ cs, c ∉ done) → cs.Nodup →
      cs.foldl (fun g c => addEdge g r c)
          ((r, done) :: done.map (fun x => (x, [])))
        = (r, done ++ cs) :: (done ++ cs).map (fun x => (x, [])) := by
  intro cs
  induction cs with
  | nil => intro done _ _ _; simp
  | cons c cs' ih =>
      intro done hr hd hnd
      obtain ⟨hcns, hnd'⟩ := List.nodup_cons.mp hnd
      simp only [List.foldl_cons]
      rw [addEdge_star_step r c done (hr c (List.mem_cons_self c cs'))
        (hd c (List.mem_cons_self c cs'))]
      rw [ih (done ++ [c]) (fun x hx => hr x (List.mem_cons_of_mem _ hx))
        (fun x hx => by
          intro hmem
          rcases List.mem_append.mp hmem with hmd | hmc
          · exact hd x (List.mem_cons_of_mem _ hx) hmd
          · rw [List.mem_singleton.mp hmc] at hx
            exact hcns hx)
        hnd']
      simp

/-- The explicit shape of a nonempty star graph built through addEdge. -/
theorem starGraph_eq (r : FPath) (cs : List FPath)
    (hr : ∀ c ∈ cs, r ≠ c) (hnd : cs.Nodup) (hne : cs ≠ []) :
    starGraph r cs = (r, cs) :: cs.map (fun x => (x, [])) := by
  cases cs with
  | nil => exact absurd rfl hne
  | cons c cs' =>
      obtain ⟨hcns, hnd'⟩ := List.nodup_cons.mp hnd
      unfold starGraph
      simp only [List.foldl_cons]
      have h1 : addEdge [] r c
          = (r, ([] : List FPath) ++ [c])
              :: (([] : List FPath) ++ [c]).map (fun x => (x, [])) := by
        have hrc : ¬ r = c := hr c (List.mem_cons_self c cs')
        simp [addEdge, addVertex, lookupList, appendNeighbor, hrc]
      rw [h1]
      rw [starGraph_fold r cs' ([] ++ [c])
        (fun x hx => hr x (List.mem_cons_of_mem _ hx))
        (fun x hx => by
          intro hmem
          rw [List.nil_append, List.mem_singleton] at hmem
          rw [hmem] at hx
          exact hcns hx)
        hnd']
      simp

/-- Membership after one priority-queue insertion. -/
theorem mem_pqInsert (x y : Int × FPath) (l : List (Int × FPath)) :
    y ∈ pqInsert x l ↔ y = x ∨ y ∈ l := by
  induction l with
  | nil => simp [pqInsert]
  | cons z zs ih =>
      unfold pqInsert
      by_cases h : pqLe x z = true
      · simp [h]
      · simp [h, ih]
        tauto

/-- Insertion grows the priority queue by one element. -/
theorem pqInsert_length (x : Int × FPath) (l : List (Int × FPath)) :
    (pqInsert x l).length = l.length + 1 := by
  induction l with
  | nil => rfl
  | cons z zs ih =>
      unfold pqInsert
      by_cases h : pqLe x z = true <;> simp [h, ih]

/-- Scanning the root's children in a star: every child is fresh, so each
is appended to the root's tree entry and pushed with weight 1. -/
theorem mstScan_star (visited : List FPath) (r : FPath) :
    ∀ (cs done : List FPath) (pq : List (Int × FPath)),
      (∀ c ∈ cs, c ∉ visited) →
      ∃ pq', mstScan visited r cs [(r, done)] pq = ([(r, done ++ cs)], pq') ∧
        pq'.length = pq.length + cs.length ∧
        ∀ y ∈ pq', y ∈ pq ∨ ∃ c ∈ cs, y = (1, c) := by
  intro cs
  induction cs with
  | nil =>
      intro done pq _
      exact ⟨pq, by simp [mstScan], by simp, fun y hy => Or.inl hy⟩
  | cons c cs' ih =>
      intro done pq hnv
      have hc : c ∉ visited := hnv c (List.mem_cons_self c cs')
      obtain ⟨pq', h1, h2, h3⟩ := ih (done ++ [c]) (pqInsert (1, c) pq)
        (fun x hx => hnv x (List.mem_cons_of_mem _ hx))
      refine ⟨pq', ?_, ?_, ?_⟩
      · show mstScan visited r (c :: cs') [(r, done)] pq = _
        unfold mstScan
        rw [if_neg hc]
        have htp : treePush [(r, done)] r c = [(r, done ++ [c])] := by
          simp [treePush]
        rw [htp, h1]
        simp
      · simp only [h2, pqInsert_length, List.length_cons]
        omega
      · intro y hy
        rcases h3 y hy with hin | ⟨c', hc', he⟩
        · rcases (mem_pqInsert _ _ _).mp hin with he | hin'
          · exact Or.inr ⟨c, List.mem_cons_self c cs', he⟩
          · exact Or.inl hin'
        · exact Or.inr ⟨c', List.mem_cons_of_mem _ hc', he⟩

/-- Draining the queue: when every queued vertex has no neighbors, the
loop pops them one by one without touching the tree. -/
theorem mstLoop_drain (g : Graph) :
    ∀ (fuel : Nat) (pq : List (Int × FPath)) (visited : List FPath)
      (t : MSTree),
      (∀ x ∈ pq, neighbors g x.2 = []) → pq.length ≤ fuel →
      mstLoop g fuel pq visited t = t := by
  intro fuel
  induction fuel with
  | zero => intro pq visited t _ _; rfl
  | succ f ih =>
      intro pq visited t hn hlen
      cases pq with
      | nil => rfl
      | cons x rest =>
          show mstLoop g (f + 1) (x :: rest) visited t = t
          unfold mstLoop
          by_cases hv : x.2 ∈ visited
          · rw [if_pos hv]
            exact ih rest visited t
              (fun y hy => hn y (List.mem_cons_of_mem _ hy))
              (by simp at hlen ⊢; omega)
          · rw [if_neg hv]
            rw [hn x (List.mem_cons_self x rest)]
            show mstLoop g f (mstScan (x.2 :: visited) x.2 [] t rest).2
              (x.2 :: visited) (mstScan (x.2 :: visited) x.2 [] t rest).1 = t
            simp only [mstScan]
            exact ih rest (x.2 :: visited) t
              (fun y hy => hn y (List.mem_cons_of_mem _ hy))
              (by simp at hlen ⊢; omega)

/-- The root of the star exposes exactly its children. -/
theorem neighbors_star_root (r : FPath) (cs : List FPath) :
    neighbors ((r, cs) :: cs.map (fun x => (x, []))) r = cs := by
  simp [neighbors, lookupList]

/-- Every non-root vertex of the star exposes no neighbors. -/
theorem neighbors_star_child (r c : FPath) (cs : List FPath) (h : c ≠ r) :
    neighbors ((r, cs) :: cs.map (fun x => (x, []))) c = [] := by
  have hrc : ¬ r = c := fun he => h he.symm
  simp only [neighbors, lookupList, hrc, if_false, lookupList_mapEmpty]
  by_cases hm : c ∈ cs <;> simp [hm]

/-- adjList.begin() of the star is the root when the root precedes every
child in the container order. -/
theorem minKey_star (r : FPath) (cs : List FPath)
    (hlt : ∀ c ∈ cs, pathLt r c = true) :
    minKey ((r, cs) :: cs.map (fun x => (x, []))) = some r := by
  have hkeep : ∀ (l : List (FPath × List FPath)),
      (∀ kv ∈ l, pathLt kv.1 r = false) →
      l.foldl (fun m kv => if pathLt kv.1 m then kv.1 else m) r = r := by
    intro l
    induction l with
    | nil => intro _; rfl
    | cons kv rest ih =>
        intro hl
        simp only [List.foldl_cons]
        rw [hl kv (List.mem_cons_self kv rest)]
        simp only [Bool.false_eq_true, if_false]
        exact ih fun x hx => hl x (List.mem_cons_of_mem _ hx)
  show some ((cs.map (fun x => (x, ([] : List FPath)))).foldl
      (fun m kv => if pathLt kv.1 m then kv.1 else m) r) = some r
  congr 1
  apply hkeep
  intro kv hkv
  obtain ⟨c, hc, rfl⟩ := List.mem_map.mp hkv
  simpa using pathLt_asymm r c (hlt c hc)

/-- The star stores exactly one edge per child. -/
theorem totalEdges_star (r : FPath) (cs : List FPath) :
    totalEdges ((r, cs) :: cs.map (fun x => (x, []))) = cs.length := by
  have hz : ∀ l : List FPath,
      ((l.map (fun x => (x, ([] : List FPath)))).map
        (fun kv => kv.2.length)).sum = 0 := by
    intro l
    induction l with
    | nil => rfl
    | cons x xs ih => simpa using ih
  unfold totalEdges
  simp only [List.map_cons, List.sum_cons, hz]
  omega

/-- Claim C3, amended: for a star whose root precedes all children in the
path order (so the root is adjList.begin()), minSpanTree yields the tree
in which the root has exactly its children, in insertion order, and no
other vertex has any child. -/
theorem minSpanTree_star_rooted (r : FPath) (cs : List FPath)
    (hne : cs ≠ []) (hnd : cs.Nodup) (hlt : ∀ c ∈ cs, pathLt r c = true) :
    ∃ t, minSpanTree (starGraph r cs) = some t ∧
      treeChildren t r = cs ∧
      ∀ v, v ≠ r → treeChildren t v = [] := by
  have hner : ∀ c ∈ cs, r ≠ c := fun c hc => pathLt_ne r c (hlt c hc)
  have hG : starGraph r cs = (r, cs) :: cs.map (fun x => (x, [])) :=
    starGraph_eq r cs hner hnd hne
  refine ⟨[(r, cs)], ?_, by simp [treeChildren, lookupList], ?_⟩
  · rw [hG]
    unfold minSpanTree
    rw [minKey_star r cs hlt, totalEdges_star r cs]
    show some (mstLoop ((r, cs) :: cs.map (fun x => (x, [])))
      (cs.length + 2) [((0 : Int), r)] [] []) = some [(r, cs)]
    congr 1
    show mstLoop ((r, cs) :: cs.map (fun x => (x, []))) (cs.length + 1)
        (mstScan [r] r (neighbors ((r, cs) :: cs.map (fun x => (x, []))) r)
          [] []).2
        [r]
        (mstScan [r] r (neighbors ((r, cs) :: cs.map (fun x => (x, []))) r)
          [] []).1
      = [(r, cs)]
    rw [neighbors_star_root r cs]
    cases cs with
    | nil => exact absurd rfl hne
    | cons c cs' =>
        have hcr : c ∉ ([r] : List FPath) := by
          simp only [List.mem_singleton]
          exact fun he => hner c (List.mem_cons_self c cs') he.symm
        have hscan0 : mstScan [r] r (c :: cs') [] []
            = mstScan [r] r cs' [(r, [c])] [(1, c)] := by
          show (if c ∈ ([r] : List FPath) then mstScan [r] r cs' [] []
            else mstScan [r] r cs' (treePush [] r c) (pqInsert (1, c) []))
            = mstScan [r] r cs' [(r, [c])] [(1, c)]
          rw [if_neg hcr]
          rfl
        obtain ⟨pq', hscan, hlen, hmemq⟩ :=
          mstScan_star [r] r cs' [c] [((1 : Int), c)]
            (fun x hx => by
              simp only [List.mem_singleton]
              exact fun he =>
                hner x (List.mem_cons_of_mem _ hx) he.symm)
        rw [hscan0, hscan]
        show mstLoop ((r, c :: cs') :: (c :: cs').map (fun x => (x, [])))
          ((c :: cs').length + 1) pq' [r] [(r, c :: cs')] = [(r, c :: cs')]
        apply mstLoop_drain
        · intro y hy
          rcases hmemq y hy with hin | ⟨c', hc', he⟩
          · rw [List.mem_singleton.mp hin]
            exact neighbors_star_child r c (c :: cs')
              (fun he => hner c (List.mem_cons_self c cs') he.symm)
          · rw [he]
            exact neighbors_star_child r c' (c :: cs')
              (fun hee => hner c' (List.mem_cons_of_mem _ hc') hee.symm)
        · rw [hlen]
          simp
          omega
  · intro v hv
    have hrv : ¬ r = v := fun he => hv he.symm
    simp [treeChildren, lookupList, hrv]

/-- Claim C3, witness instance of the amended statement. -/
theorem minSpanTree_star_rooted_witness :
    (["b", "c"] : List FPath) ≠ [] ∧ (["b", "c"] : List FPath).Nodup ∧
    (∀ c ∈ (["b", "c"] : List FPath), pathLt "a" c = true) ∧
    (∃ t, minSpanTree (starGraph "a" ["b", "c"]) = some t ∧
      treeChildren t "a" = ["b", "c"] ∧
      ∀ v, v ≠ "a" → treeChildren t v = []) :=
  ⟨by decide, by decide, by decide,
   minSpanTree_star_rooted "a" ["b", "c"] (by decide) (by decide) (by decide)⟩
